import Mathlib

/-!
Verification of the GF(2) polynomial arithmetic model and the structural
parameters of the Verilog generators of the `gf2e_prng_tool` repository.

Polynomials over GF(2) are represented as natural numbers: bit `i` of the
integer is the coefficient of `x^i` (source: `gf2_poly_utils.py`).

The Python `while` loops are embedded as fuel-indexed structural recursions
(the fuel argument is an upper bound on the number of iterations, proven
sufficient below); this keeps every definition executable by the kernel.
-/

set_option maxHeartbeats 1000000

/-- Executable binary logarithm loop: Python's `int.bit_length`, with fuel
(the loop halves `n`, so `n` iterations always suffice).  Proven equal to
`Nat.size` below. -/
def bit_length_aux : Nat → Nat → Nat
  | 0, _ => 0
  | fuel + 1, n => if n = 0 then 0 else bit_length_aux fuel (n / 2) + 1

/-- Python's `int.bit_length`: number of bits needed to represent `n`. -/
def bit_length (n : Nat) : Nat :=
  bit_length_aux n n

/-- Degree of a binary polynomial: `-1` for the zero polynomial, otherwise
`bit_length - 1`.  Source: `gf2_poly_utils.poly_degree`. -/
def poly_degree (p : Nat) : Int :=
  if p = 0 then -1 else (bit_length p : Int) - 1

/-- One iteration of the XOR-shift-subtract loop body of
`gf2_poly_utils.poly_mod`: `rem ^= h << (poly_degree rem - deg_h)`.
The shift amount is a non-negative `int` whenever the loop guard
`poly_degree rem >= deg_h` holds, so `Int.toNat` is exact there. -/
def modStep (h rem : Nat) : Nat :=
  rem ^^^ (h <<< (poly_degree rem - poly_degree h).toNat)

/-- The `while poly_degree(rem) >= deg_h` loop of `gf2_poly_utils.poly_mod`,
with an explicit fuel bound on the number of iterations. -/
def polyModGo (h : Nat) : Nat → Nat → Nat
  | 0, rem => rem
  | fuel + 1, rem =>
    if poly_degree h ≤ poly_degree rem then polyModGo h fuel (modStep h rem) else rem

/-- `y(x) mod h(x)` over GF(2).  Source: `gf2_poly_utils.poly_mod`.
`bit_length y + 1` iterations always suffice when `h ≠ 0` (each iteration
strictly decreases the degree of the remainder, proven below).  For `h = 0`
the Python loop never exits; this total model then returns `y` unchanged,
and the divergence is captured separately by `polyModFuel`. -/
def poly_mod (y h : Nat) : Nat :=
  polyModGo h (bit_length y + 1) y

/-- The same loop, but reporting fuel exhaustion: `none` means the loop was
still running after `fuel` iterations.  Used to state termination (and, for
`h = 0`, divergence) of the source loop. -/
def polyModFuel (h : Nat) : Nat → Nat → Option Nat
  | 0, rem =>
    if poly_degree h ≤ poly_degree rem then none else some rem
  | fuel + 1, rem =>
    if poly_degree h ≤ poly_degree rem then polyModFuel h fuel (modStep h rem)
    else some rem

/-- The `while n:` loop of `gf2_poly_utils.get_bit_positions`, fuel-indexed:
`n & 1` is `n % 2` and `n >>= 1` is `n / 2`. -/
def gbpAux : Nat → Nat → Nat → List Nat
  | 0, _, _ => []
  | fuel + 1, n, position =>
    if n = 0 then []
    else (if n % 2 = 1 then [position] else []) ++ gbpAux fuel (n / 2) (position + 1)

/-- Ascending positions of the set bits of `n`.
Source: `gf2_poly_utils.get_bit_positions`.  The loop runs
`bit_length n ≤ n` times, so `n` is enough fuel. -/
def get_bit_positions (n : Nat) : List Nat :=
  gbpAux n n 0

/-- `a(x)·p(x) + c(x)` over GF(2): XOR together `p` shifted by each set bit
of `a`, then XOR `c`.  Source: `gf2_poly_utils.poly_affine`. -/
def poly_affine (a p c : Nat) : Nat :=
  ((get_bit_positions a).foldl (fun out i => out ^^^ (p <<< i)) 0) ^^^ c

/-- `(a(x)·p(x) + c(x)) mod h(x)`.  Source: `gf2_poly_utils.poly_affine_mod`. -/
def poly_affine_mod (a p c h : Nat) : Nat :=
  poly_mod (poly_affine a p c) h

/-- Iterative left-to-right XOR of a list of integers.
Source: `xor_tree_generator.xor_integers`. -/
def xor_integers (l : List Nat) : Nat :=
  l.foldl (fun result v => result ^^^ v) 0

/-! ### XOR reduction tree (`xor_tree_generator.py`)

`generate_src` builds one combinational stage per tree level: adjacent wires
are paired into an XOR gate, and an odd leftover wire is passed through
unchanged.  We model each stage both on the *values* carried by the wires
(`xorStage`, the circuit semantics: `assign vec_s_j = vec_a ^ vec_b`) and on
the wire labels themselves (`nextLevelWires`, to capture the structural
success/failure of the generator: with zero input vectors the final
`current_level[0]` lookup fails). -/

/-- One tree stage on wire values: XOR adjacent pairs, pass an odd
leftover element through unchanged. -/
def xorStage : List Nat → List Nat
  | a :: b :: rest => (a ^^^ b) :: xorStage rest
  | [a] => [a]
  | [] => []

/-- The `while len(current_level) > 1` loop of `generate_src`, fuel-indexed
(each stage at least halves the level size, so `length l` stages suffice). -/
def xorTreeLoop : Nat → List Nat → List Nat
  | 0, l => l
  | fuel + 1, l => if 1 < l.length then xorTreeLoop fuel (xorStage l) else l

/-- Value carried by the output wire of the generated XOR tree, given the
values of the input vectors; `none` models the `current_level[0]`
index error reached when the tree is requested for zero vectors. -/
def xor_tree_out (inputs : List Nat) : Option Nat :=
  (xorTreeLoop inputs.length inputs).head?

/-- One tree stage on wire labels `(stage, index)`: the inner `while i <
len(current_level)` loop of `generate_src`, which numbers the new wires of
stage `stage` consecutively (`new_idx = len(next_level)`). -/
def nextLevelWires (stage : Nat) : List (Nat × Nat) → Nat → List (Nat × Nat)
  | _ :: _ :: rest, k => (stage, k) :: nextLevelWires stage rest (k + 1)
  | [_], k => [(stage, k)]
  | [], _ => []

/-- The stage loop of `generate_src` on wire labels, starting at stage 1. -/
def xorTreeWireLoop : Nat → Nat → List (Nat × Nat) → List (Nat × Nat)
  | 0, _, cur => cur
  | fuel + 1, stage, cur =>
    if 1 < cur.length then xorTreeWireLoop fuel (stage + 1) (nextLevelWires stage cur 0)
    else cur

/-- The final output wire `current_level[0]` chosen by `generate_src` for a
tree over `num_vectors` input wires `(0, i)`; `none` models the fatal
`IndexError` when `num_vectors = 0`. -/
def xor_tree_final_wire (num_vectors : Nat) : Option (Nat × Nat) :=
  (xorTreeWireLoop num_vectors 1 ((List.range num_vectors).map (fun i => (0, i)))).head?

/-! ### Modular reducer generator (`gf2_poly_mod_generator.py`) -/

/-- Constants for the reduction step: `poly_mod(1 << (deg_h + i), h)` for
`i < max(deg_y - deg_h + 1, 0)` with `deg_y = y_bit_length - 1`.
Source: `gf2_poly_mod_generator.get_reduction_constants`.
(The shift amount `deg_h + i` is a non-negative `int` whenever `h ≠ 0`,
so `Int.toNat` is exact there.) -/
def get_reduction_constants (h y_bit_length : Nat) : List Nat :=
  let deg_h := poly_degree h
  let deg_y : Int := (y_bit_length : Int) - 1
  let num_consts := (max (deg_y - deg_h + 1) 0).toNat
  (List.range num_consts).map (fun (i : Nat) => poly_mod (1 <<< (deg_h + (i : Int)).toNat) h)

/-- Number of vectors fed to the XOR tree by the reducer's `generate_src`:
one per reduction constant plus the vector of low-order input bits. -/
def mod_xor_tree_num_vectors (h y_bit_length : Nat) : Nat :=
  (get_reduction_constants h y_bit_length).length + 1

/-- Width of the vectors fed to the XOR tree by the reducer's
`generate_src`: `out_bit_length = h.bit_length() - 1`. -/
def mod_xor_tree_bit_length (h : Nat) : Nat :=
  bit_length h - 1

/-- XOR-tree vector count requested by the reducer's
`generate_submodules_verilog_and_tb_to_files`:
`max(y_bit_length - out_bit_length + 1, 0)` (computed over `int`). -/
def mod_submodule_num_vectors (h y_bit_length : Nat) : Nat :=
  (max ((y_bit_length : Int) - ((bit_length h : Int) - 1) + 1) 0).toNat

/-- The reducer's `generate_verilog_and_tb_to_files` pipeline: first the
XOR-tree submodule is generated (this crashes with an `IndexError`, modeled
as `none`, when it is requested for zero vectors), and only then the
reducer's own module (its reduction constants, vector count and width). -/
def gf2_poly_mod_generate (h y_bit_length : Nat) : Option (List Nat × Nat × Nat) :=
  match xor_tree_final_wire (mod_submodule_num_vectors h y_bit_length) with
  | none => none
  | some _ =>
    some (get_reduction_constants h y_bit_length,
          mod_xor_tree_num_vectors h y_bit_length,
          mod_xor_tree_bit_length h)

/-! ### Affine transform generator (`gf2_poly_affine_generator.py`) -/

/-- Structural description of the generated affine module: its output width
and the vector count and width of the single XOR tree it instantiates. -/
structure AffineModuleDesc where
  out_bit_length : Nat
  xor_tree_num_vectors : Nat
  xor_tree_bit_length : Nat
deriving DecidableEq

/-- Structural content of the affine generator's `generate_src`:
`a_ones = get_bit_positions(a)[::-1]`, `out_bit_length = a_ones[0] +
bit_length`, and the XOR tree gets `num_a_ones + 1 if c else num_a_ones`
vectors of width `out_bit_length`.  `none` models the fatal `IndexError`
raised by `a_ones[0]` when `a = 0` (empty bit-position list). -/
def gf2_poly_affine_generate_src (a c bit_len : Nat) : Option AffineModuleDesc :=
  let a_ones := (get_bit_positions a).reverse
  match a_ones.head? with
  | none => none
  | some top =>
    let out_bit_length := top + bit_len
    let xor_tree_num_vectors := if c ≠ 0 then a_ones.length + 1 else a_ones.length
    some ⟨out_bit_length, xor_tree_num_vectors, out_bit_length⟩

/-! ### Test-harness randomness model

Each generator's test harness draws its stimulus with `random.seed(42)`
followed by `random.randint(0, 2**bit_length - 1)` calls.  We model the
Python `random` module as an arbitrary stateful generator: a state type `S`,
`seedFn` (for `random.seed`) and `randint lo hi` (returning a value and the
next state).  Resetting the state with the fixed seed is exactly what makes
the harness output independent of the ambient generator state. -/

structure RNGImpl (S : Type) where
  seedFn : Nat → S
  randint : Nat → Nat → S → Nat × S

/-- Draw `n` successive `randint lo hi` values, threading the state. -/
def drawN {S : Type} (R : RNGImpl S) (lo hi : Nat) : Nat → S → List Nat × S
  | 0, st => ([], st)
  | n + 1, st =>
    let (v, st') := R.randint lo hi st
    let (vs, st'') := drawN R lo hi n st'
    (v :: vs, st'')

/-- `generate_random_integers(num_vectors, bit_length, seed)` of the
generators: `random.seed(seed)` (discarding the ambient state), then
`num_vectors` draws of `randint(0, 2**bit_length - 1)`. -/
def generate_random_integers {S : Type} (R : RNGImpl S) (num_vectors bit_len seed : Nat)
    (_ambient : S) : List Nat × S :=
  drawN R 0 (2 ^ bit_len - 1) num_vectors (R.seedFn seed)

/-- `xor_tree_generator.random_computation_example`: the random stimulus and
its expected iterative XOR. -/
def xor_tree_random_computation_example {S : Type} (R : RNGImpl S)
    (num_vectors bit_len : Nat) (st : S) : (List Nat × Nat) × S :=
  let drawn := generate_random_integers R num_vectors bit_len 42 st
  ((drawn.1, xor_integers drawn.1), drawn.2)

/-- Everything of `xor_tree_generator.generate_tb`'s output text that varies
with the invocation: the tree parameters, the stimulus and the golden
expected value.  (The surrounding text is a fixed function of these.) -/
def xor_tree_generate_tb_desc {S : Type} (R : RNGImpl S)
    (num_vectors bit_len : Nat) (st : S) : (Nat × Nat × List Nat × Nat) × S :=
  let ex := xor_tree_random_computation_example R num_vectors bit_len st
  ((num_vectors, bit_len, ex.1.1, ex.1.2), ex.2)

/-! ### Sequential PRNG (`gf2e_prng_tool.py`) -/

/-- The spec-side `k`-fold software iteration of
`affineMod(a, -, c, h)` starting from `x`. -/
def affine_mod_iter (a c h k x : Nat) : Nat :=
  (fun p => poly_affine_mod a p c h)^[k] x

/-- `gf2e_prng_tool.random_computation_example`: draw one random
`poly_degree h`-bit seed, then run the `for _ in range(100)` loop
`prng_out = poly_affine_mod(a, prng_in, c, h); prng_in = prng_out`. -/
def prng_random_computation_example {S : Type} (R : RNGImpl S) (a c h : Nat)
    (st : S) : (Nat × Nat) × S :=
  let bl := (poly_degree h).toNat
  let drawn := generate_random_integers R 1 bl 42 st
  let code_input := drawn.1.headD 0
  let expected :=
    (List.range 100).foldl (fun prng_in _ => poly_affine_mod a prng_in c h) code_input
  ((code_input, expected), drawn.2)

/-- One clock edge of the generated `gf2_{e}_prng` state register
(`always @(posedge clk)` block of `gf2e_prng_tool.generate_src`): reset
loads the seed, otherwise enable advances the state by one recurrence step,
otherwise the state is unchanged. -/
def prng_step (a c h : Nat) (rst enable : Bool) (seed state : Nat) : Nat :=
  if rst then seed
  else if enable then poly_affine_mod a state c h
  else state

/-- `k` clock steps with `rst` low and `enable` high, from state `s`. -/
def prng_run (a c h : Nat) : Nat → Nat → Nat
  | 0, s => s
  | k + 1, s => prng_run a c h k (prng_step a c h false true 0 s)

/-! ### Bridge to `Polynomial (ZMod 2)`

To settle the algebraic claims we interpret each bit-mask as an actual
polynomial over the field `ZMod 2` and show that `poly_mod` is Mathlib's
`modByMonic` and `poly_affine` is `a * p + c` under this interpretation. -/

/-- Interpretation of a bit-mask as a polynomial over `GF(2)`:
bit `i` contributes the monomial `X^i`. -/
noncomputable def toPoly (n : Nat) : Polynomial (ZMod 2) :=
  ∑ i ∈ Finset.range (Nat.size n), if n.testBit i then Polynomial.X ^ i else 0

/-! ## Basic facts about `bit_length`, `poly_degree` and `modStep` -/

theorem bit_length_aux_zero (fuel : Nat) : bit_length_aux fuel 0 = 0 := by
  cases fuel <;> simp [bit_length_aux]

theorem size_eq_size_div_two_add_one {n : Nat} (hn : n ≠ 0) :
    Nat.size n = Nat.size (n / 2) + 1 := by
  apply le_antisymm
  · rw [Nat.size_le]
    have h1 : n / 2 < 2 ^ Nat.size (n / 2) := Nat.lt_size_self _
    have h2 : (2 : Nat) ^ (Nat.size (n / 2) + 1) = 2 * 2 ^ Nat.size (n / 2) := by
      rw [pow_succ]; ring
    omega
  · have hpos : 0 < Nat.size n := Nat.size_pos.2 (Nat.pos_of_ne_zero hn)
    rcases Nat.eq_zero_or_pos (n / 2) with h0 | hpos2
    · simp [h0]; omega
    · have hs : 0 < Nat.size (n / 2) := Nat.size_pos.2 hpos2
      have hle : 2 ^ (Nat.size (n / 2) - 1) ≤ n / 2 :=
        Nat.lt_size.1 (by omega)
      have : Nat.size (n / 2) < Nat.size n := by
        rw [Nat.lt_size]
        have h2 : (2 : Nat) ^ Nat.size (n / 2) = 2 * 2 ^ (Nat.size (n / 2) - 1) := by
          conv_lhs => rw [show Nat.size (n / 2) = (Nat.size (n / 2) - 1) + 1 by omega]
          rw [pow_succ]; ring
        omega
      omega

theorem bit_length_aux_eq_size {fuel n : Nat} (h : n ≤ fuel) :
    bit_length_aux fuel n = Nat.size n := by
  induction fuel generalizing n with
  | zero =>
    have : n = 0 := by omega
    subst this; simp [bit_length_aux]
  | succ fuel ih =>
    by_cases hn : n = 0
    · subst hn; simp [bit_length_aux]
    · have hdiv : n / 2 ≤ fuel := by omega
      rw [bit_length_aux, if_neg hn, ih hdiv, ← size_eq_size_div_two_add_one hn]

theorem bit_length_eq_size (n : Nat) : bit_length n = Nat.size n :=
  bit_length_aux_eq_size le_rfl

theorem poly_degree_eq_size (p : Nat) :
    poly_degree p = if p = 0 then (-1 : Int) else (Nat.size p : Int) - 1 := by
  rw [poly_degree, bit_length_eq_size]

theorem poly_degree_le_iff {h rem : Nat} :
    poly_degree h ≤ poly_degree rem ↔ Nat.size h ≤ Nat.size rem := by
  rw [poly_degree_eq_size, poly_degree_eq_size]
  by_cases h0 : h = 0
  · subst h0
    by_cases r0 : rem = 0 <;> simp [r0, Nat.size_zero]
  · have hsh : 0 < Nat.size h := Nat.size_pos.2 (Nat.pos_of_ne_zero h0)
    by_cases r0 : rem = 0
    · subst r0
      simp only [if_neg h0, if_pos rfl, Nat.size_zero]
      omega
    · simp only [if_neg h0, if_neg r0]
      omega

theorem testBit_true_of_bounds {x k : Nat} (h1 : 2 ^ k ≤ x) (h2 : x < 2 ^ (k + 1)) :
    x.testBit k = true := by
  rw [Nat.testBit_to_div_mod]
  have hK : 0 < 2 ^ k := Nat.pos_pow_of_pos k (by omega)
  have hpow : (2 : Nat) ^ (k + 1) = 2 * 2 ^ k := by rw [pow_succ]; ring
  have hdiv1 : 1 ≤ x / 2 ^ k := (Nat.le_div_iff_mul_le hK).2 (by omega)
  have hdiv2 : x / 2 ^ k < 2 := (Nat.div_lt_iff_lt_mul hK).2 (by omega)
  have hone : x / 2 ^ k = 1 := by omega
  rw [hone]
  decide

theorem lt_pow_of_testBit_false {x k : Nat} (h2 : x < 2 ^ (k + 1))
    (hb : x.testBit k = false) : x < 2 ^ k := by
  rw [Nat.testBit_to_div_mod, decide_eq_false_iff_not] at hb
  have hK : 0 < 2 ^ k := Nat.pos_pow_of_pos k (by omega)
  have hpow : (2 : Nat) ^ (k + 1) = 2 * 2 ^ k := by rw [pow_succ]; ring
  have hdiv2 : x / 2 ^ k < 2 := (Nat.div_lt_iff_lt_mul hK).2 (by omega)
  have hxm := Nat.div_add_mod x (2 ^ k)
  have hlt := Nat.mod_lt x hK
  generalize hy : x / 2 ^ k = y at hb hdiv2 hxm
  have hy0 : y = 0 := by omega
  rw [hy0, Nat.mul_zero, Nat.zero_add] at hxm
  omega

/-- Core decrease fact: under the loop guard (and `h ≠ 0`), the loop body
cancels the top bit of the remainder, so the new remainder is below
`2 ^ (size rem - 1)`. -/
theorem modStep_lt_pow {h rem : Nat} (hh : h ≠ 0)
    (hguard : poly_degree h ≤ poly_degree rem) :
    rem ≠ 0 ∧ modStep h rem < 2 ^ (Nat.size rem - 1) := by
  have hsz : Nat.size h ≤ Nat.size rem := poly_degree_le_iff.1 hguard
  have hsh : 0 < Nat.size h := Nat.size_pos.2 (Nat.pos_of_ne_zero hh)
  have hr0 : rem ≠ 0 := by
    intro h0
    rw [h0, Nat.size_zero] at hsz
    omega
  refine ⟨hr0, ?_⟩
  have hsr : 0 < Nat.size rem := Nat.size_pos.2 (Nat.pos_of_ne_zero hr0)
  -- the shift amount is `size rem - size h`
  have hshift : (poly_degree rem - poly_degree h).toNat = Nat.size rem - Nat.size h := by
    rw [poly_degree_eq_size, poly_degree_eq_size, if_neg hr0, if_neg hh]
    omega
  set d := Nat.size rem - 1 with hd
  -- both the remainder and the shifted modulus live in `[2^d, 2^(d+1))`
  have hrem_ub : rem < 2 ^ (d + 1) := by
    have := Nat.lt_size_self rem
    rwa [show d + 1 = Nat.size rem by omega]
  have hrem_lb : 2 ^ d ≤ rem := Nat.lt_size.1 (by omega)
  have hsize_shift : Nat.size (h <<< (Nat.size rem - Nat.size h)) = Nat.size rem := by
    rw [Nat.size_shiftLeft hh]
    omega
  have hsh_ub : h <<< (Nat.size rem - Nat.size h) < 2 ^ (d + 1) := by
    have h1 := Nat.lt_size_self (h <<< (Nat.size rem - Nat.size h))
    rw [hsize_shift] at h1
    rw [show d + 1 = Nat.size rem by omega]
    exact h1
  have hsh_lb : 2 ^ d ≤ h <<< (Nat.size rem - Nat.size h) := by
    apply Nat.lt_size.1
    rw [hsize_shift]
    omega
  -- the XOR therefore clears bit `d` and stays below `2^(d+1)`
  have hx_ub : modStep h rem < 2 ^ (d + 1) := by
    rw [modStep, hshift]
    exact Nat.xor_lt_two_pow hrem_ub hsh_ub
  have hx_bit : (modStep h rem).testBit d = false := by
    rw [modStep, hshift, Nat.testBit_xor,
        testBit_true_of_bounds hrem_lb hrem_ub,
        testBit_true_of_bounds hsh_lb hsh_ub]
    rfl
  exact lt_pow_of_testBit_false hx_ub hx_bit

theorem modStep_size_lt {h rem : Nat} (hh : h ≠ 0)
    (hguard : poly_degree h ≤ poly_degree rem) :
    Nat.size (modStep h rem) < Nat.size rem := by
  obtain ⟨hr0, hlt⟩ := modStep_lt_pow hh hguard
  have hsr : 0 < Nat.size rem := Nat.size_pos.2 (Nat.pos_of_ne_zero hr0)
  have := Nat.size_le.2 hlt
  omega

theorem modStep_degree_lt {h rem : Nat} (hh : h ≠ 0)
    (hguard : poly_degree h ≤ poly_degree rem) :
    poly_degree (modStep h rem) < poly_degree rem := by
  obtain ⟨hr0, _⟩ := modStep_lt_pow hh hguard
  have hsz := modStep_size_lt hh hguard
  rw [poly_degree_eq_size, poly_degree_eq_size, if_neg hr0]
  by_cases hm : modStep h rem = 0 <;> simp [hm]
  · have : 0 < Nat.size rem := Nat.size_pos.2 (Nat.pos_of_ne_zero hr0)
    omega
  · omega

/-- If the loop guard fails, the loop returns the remainder unchanged,
whatever the fuel. -/
theorem polyModGo_of_guard_false {h rem : Nat} (fuel : Nat)
    (hguard : ¬ poly_degree h ≤ poly_degree rem) :
    polyModGo h fuel rem = rem := by
  cases fuel with
  | zero => rfl
  | succ fuel => rw [polyModGo, if_neg hguard]

/-- With fuel exceeding `size rem`, the loop result does not depend on the
exact fuel value: the loop has already reached its fixed point. -/
theorem polyModGo_fuel_irrel {h : Nat} (hh : h ≠ 0) :
    ∀ {f₁ f₂ rem : Nat}, Nat.size rem < f₁ → Nat.size rem < f₂ →
      polyModGo h f₁ rem = polyModGo h f₂ rem := by
  intro f₁
  induction f₁ with
  | zero => intro f₂ rem h1 _; omega
  | succ f₁ ih =>
    intro f₂ rem h1 h2
    cases f₂ with
    | zero => omega
    | succ f₂ =>
      rw [polyModGo, polyModGo]
      by_cases hguard : poly_degree h ≤ poly_degree rem
      · rw [if_pos hguard, if_pos hguard]
        have hlt := modStep_size_lt hh hguard
        exact ih (by omega) (by omega)
      · rw [if_neg hguard, if_neg hguard]

/-- The defining equation of the Python loop: one unfolding of `poly_mod`. -/
theorem poly_mod_unfold {y h : Nat} (hh : h ≠ 0) :
    poly_mod y h =
      if poly_degree h ≤ poly_degree y then poly_mod (modStep h y) h else y := by
  rw [poly_mod, poly_mod, bit_length_eq_size, bit_length_eq_size]
  rw [polyModGo]
  by_cases hguard : poly_degree h ≤ poly_degree y
  · rw [if_pos hguard, if_pos hguard]
    have hlt := modStep_size_lt hh hguard
    exact polyModGo_fuel_irrel hh (by omega) (by omega)
  · rw [if_neg hguard, if_neg hguard]

/-- After the loop, the degree of the remainder is below the degree of the
modulus (the loop exits exactly when its guard fails). -/
theorem polyModGo_degree_lt {h : Nat} (hh : h ≠ 0) :
    ∀ {fuel rem : Nat}, Nat.size rem < fuel →
      poly_degree (polyModGo h fuel rem) < poly_degree h := by
  intro fuel
  induction fuel with
  | zero => intro rem h1; omega
  | succ fuel ih =>
    intro rem h1
    rw [polyModGo]
    by_cases hguard : poly_degree h ≤ poly_degree rem
    · rw [if_pos hguard]
      have hlt := modStep_size_lt hh hguard
      exact ih (by omega)
    · rw [if_neg hguard]
      omega

theorem poly_mod_degree_lt {y h : Nat} (hh : h ≠ 0) :
    poly_degree (poly_mod y h) < poly_degree h := by
  rw [poly_mod, bit_length_eq_size]
  exact polyModGo_degree_lt hh (by omega)

/-- A remainder already below the modulus degree is returned unchanged. -/
theorem poly_mod_of_degree_lt {y h : Nat} (hlt : poly_degree y < poly_degree h) :
    poly_mod y h = y := by
  rw [poly_mod]
  exact polyModGo_of_guard_false _ (by omega)

theorem poly_mod_idem (y h : Nat) (hh : h ≠ 0) :
    poly_mod (poly_mod y h) h = poly_mod y h :=
  poly_mod_of_degree_lt (poly_mod_degree_lt hh)

/-! ## Termination and divergence of the reduction loop (`polyModFuel`) -/

theorem neg_one_le_poly_degree (p : Nat) : (-1 : Int) ≤ poly_degree p := by
  rw [poly_degree]
  split
  · omega
  · omega

theorem modStep_zero_left (rem : Nat) : modStep 0 rem = rem := by
  rw [modStep, Nat.zero_shiftLeft, Nat.xor_zero]

/-- With a zero modulus the loop guard always holds and the body leaves the
remainder unchanged: the loop never exits, whatever the fuel. -/
theorem polyModFuel_zero_modulus (fuel rem : Nat) : polyModFuel 0 fuel rem = none := by
  induction fuel generalizing rem with
  | zero =>
    rw [polyModFuel, if_pos]
    show poly_degree 0 ≤ poly_degree rem
    rw [poly_degree, if_pos rfl]
    exact neg_one_le_poly_degree rem
  | succ fuel ih =>
    rw [polyModFuel, if_pos, modStep_zero_left]
    · exact ih rem
    · show poly_degree 0 ≤ poly_degree rem
      rw [poly_degree, if_pos rfl]
      exact neg_one_le_poly_degree rem

/-- With a non-zero modulus, `size rem` iterations of fuel always reach the
loop exit. -/
theorem polyModFuel_isSome {h : Nat} (hh : h ≠ 0) :
    ∀ {fuel rem : Nat}, Nat.size rem ≤ fuel → (polyModFuel h fuel rem).isSome = true := by
  intro fuel
  induction fuel with
  | zero =>
    intro rem hle
    have hr : rem = 0 := Nat.size_eq_zero.1 (by omega)
    subst hr
    rw [polyModFuel, if_neg, Option.isSome_some]
    rw [poly_degree_le_iff, Nat.size_zero]
    have := Nat.size_pos.2 (Nat.pos_of_ne_zero hh)
    omega
  | succ fuel ih =>
    intro rem hle
    rw [polyModFuel]
    by_cases hguard : poly_degree h ≤ poly_degree rem
    · rw [if_pos hguard]
      have := modStep_size_lt hh hguard
      exact ih (by omega)
    · rw [if_neg hguard, Option.isSome_some]

/-! ## Facts about `get_bit_positions` -/

theorem gbpAux_zero_n (fuel pos : Nat) : gbpAux fuel 0 pos = [] := by
  cases fuel <;> simp [gbpAux]

theorem gbpAux_fuel_irrel :
    ∀ {f₁ f₂ n pos : Nat}, n ≤ f₁ → n ≤ f₂ → gbpAux f₁ n pos = gbpAux f₂ n pos := by
  intro f₁
  induction f₁ with
  | zero =>
    intro f₂ n pos h1 _
    have : n = 0 := by omega
    subst this
    rw [gbpAux_zero_n, gbpAux_zero_n]
  | succ f₁ ih =>
    intro f₂ n pos h1 h2
    by_cases hn : n = 0
    · subst hn; rw [gbpAux_zero_n, gbpAux_zero_n]
    · cases f₂ with
      | zero => omega
      | succ f₂ =>
        rw [gbpAux, gbpAux, if_neg hn, if_neg hn]
        have hdiv : n / 2 < n := Nat.div_lt_self (Nat.pos_of_ne_zero hn) (by omega)
        rw [@ih f₂ (n / 2) (pos + 1) (by omega) (by omega)]

theorem gbpAux_pos_shift :
    ∀ {fuel n : Nat} (pos : Nat), gbpAux fuel n pos = (gbpAux fuel n 0).map (· + pos) := by
  intro fuel
  induction fuel with
  | zero => intro n pos; simp [gbpAux]
  | succ fuel ih =>
    intro n pos
    by_cases hn : n = 0
    · subst hn; simp [gbpAux]
    · rw [gbpAux, gbpAux, if_neg hn, if_neg hn, List.map_append]
      congr 1
      · by_cases hodd : n % 2 = 1 <;> simp [hodd]
      · rw [ih (pos + 1), ih 1, List.map_map]
        apply List.map_congr_left
        intro x _
        simp
        omega

theorem get_bit_positions_zero : get_bit_positions 0 = [] := rfl

/-- The Python loop unrolled once: positions of `n` are the low-bit flag
plus the shifted positions of `n >> 1`. -/
theorem get_bit_positions_unfold {n : Nat} (hn : n ≠ 0) :
    get_bit_positions n =
      (if n % 2 = 1 then [0] else []) ++ (get_bit_positions (n / 2)).map (· + 1) := by
  rw [get_bit_positions]
  rcases Nat.exists_eq_succ_of_ne_zero hn with ⟨m, rfl⟩
  rw [gbpAux, if_neg hn]
  congr 1
  rw [gbpAux_pos_shift 1, get_bit_positions]
  have hdiv : (m + 1) / 2 ≤ m := by omega
  rw [gbpAux_fuel_irrel (le_refl ((m+1)/2)) hdiv]

theorem get_bit_positions_ne_nil {n : Nat} (hn : n ≠ 0) :
    get_bit_positions n ≠ [] := by
  induction n using Nat.strong_induction_on with
  | _ n ih =>
    rw [get_bit_positions_unfold hn]
    by_cases hodd : n % 2 = 1
    · simp [hodd]
    · have heven : n % 2 = 0 := by omega
      have hhalf : n / 2 ≠ 0 := by omega
      have hdiv : n / 2 < n := Nat.div_lt_self (Nat.pos_of_ne_zero hn) (by omega)
      have := ih (n / 2) hdiv hhalf
      simp [hodd, this]

/-- The last (largest) bit position of a non-zero `n` is its degree. -/
theorem get_bit_positions_getLast {n : Nat} (hn : n ≠ 0) :
    (get_bit_positions n).getLast? = some (Nat.size n - 1) := by
  induction n using Nat.strong_induction_on with
  | _ n ih =>
    rw [get_bit_positions_unfold hn]
    by_cases hhalf : n / 2 = 0
    · have hone : n = 1 := by omega
      subst hone
      simp [get_bit_positions_zero]
    · have hdiv : n / 2 < n := Nat.div_lt_self (Nat.pos_of_ne_zero hn) (by omega)
      have hlast := ih (n / 2) hdiv hhalf
      rw [List.getLast?_append, List.getLast?_map, hlast]
      have hs := size_eq_size_div_two_add_one hn
      have hsp : 0 < Nat.size (n / 2) := Nat.size_pos.2 (Nat.pos_of_ne_zero hhalf)
      simp only [Option.map_some', Option.or_some]
      congr 1
      omega

/-! ## XOR reduction tree: each stage preserves the XOR of the level -/

theorem foldl_xor_init (l : List Nat) :
    ∀ a : Nat, l.foldl (fun r v => r ^^^ v) a = a ^^^ l.foldl (fun r v => r ^^^ v) 0 := by
  induction l with
  | nil => intro a; simp
  | cons x xs ih =>
    intro a
    rw [List.foldl_cons, List.foldl_cons, ih (a ^^^ x), ih (0 ^^^ x),
        Nat.zero_xor, Nat.xor_assoc]

theorem xor_integers_cons (x : Nat) (l : List Nat) :
    xor_integers (x :: l) = x ^^^ xor_integers l := by
  rw [xor_integers, xor_integers, List.foldl_cons, foldl_xor_init, Nat.zero_xor]

theorem xorStage_xor : ∀ l : List Nat, xor_integers (xorStage l) = xor_integers l
  | [] => rfl
  | [a] => rfl
  | a :: b :: rest => by
    rw [xorStage, xor_integers_cons, xorStage_xor rest, xor_integers_cons,
        xor_integers_cons, Nat.xor_assoc]

theorem xorStage_length : ∀ l : List Nat, (xorStage l).length = (l.length + 1) / 2
  | [] => rfl
  | [a] => by simp [xorStage]
  | a :: b :: rest => by
    rw [xorStage, List.length_cons, xorStage_length rest]
    simp [List.length_cons]
    omega

theorem xorStage_ne_nil : ∀ {l : List Nat}, l ≠ [] → xorStage l ≠ []
  | [], h => absurd rfl h
  | [a], _ => by simp [xorStage]
  | a :: b :: rest, _ => by simp [xorStage]

/-- With fuel at least the level size, the stage loop reduces a non-empty
level to the singleton holding its XOR. -/
theorem xorTreeLoop_eq :
    ∀ {fuel : Nat} {l : List Nat}, l ≠ [] → l.length ≤ fuel →
      xorTreeLoop fuel l = [xor_integers l] := by
  intro fuel
  induction fuel with
  | zero =>
    intro l hne hlen
    have : l = [] := List.length_eq_zero.1 (by omega)
    exact absurd this hne
  | succ fuel ih =>
    intro l hne hlen
    rw [xorTreeLoop]
    by_cases hlong : 1 < l.length
    · rw [if_pos hlong]
      have hlen2 : (xorStage l).length = (l.length + 1) / 2 := xorStage_length l
      rw [ih (xorStage_ne_nil hne) (by omega), xorStage_xor]
    · rw [if_neg hlong]
      have h1 : l.length = 1 := by
        have : 0 < l.length := List.length_pos.2 hne
        omega
      obtain ⟨a, rfl⟩ := List.length_eq_one.1 h1
      rw [xor_integers, List.foldl_cons, List.foldl_nil, Nat.zero_xor]

/-- Output value of the generated XOR tree on a non-empty input list. -/
theorem xor_tree_out_eq {l : List Nat} (hne : l ≠ []) :
    xor_tree_out l = some (xor_integers l) := by
  rw [xor_tree_out, xorTreeLoop_eq hne le_rfl, List.head?_cons]

/-! ## XOR tree wire structure: the final-wire lookup fails iff `N = 0` -/

theorem nextLevelWires_ne_nil (stage : Nat) :
    ∀ {l : List (Nat × Nat)} {k : Nat}, l ≠ [] → nextLevelWires stage l k ≠ []
  | [], _, h => absurd rfl h
  | [a], _, _ => by simp [nextLevelWires]
  | a :: b :: rest, _, _ => by simp [nextLevelWires]

theorem xorTreeWireLoop_ne_nil :
    ∀ {fuel stage : Nat} {cur : List (Nat × Nat)}, cur ≠ [] →
      xorTreeWireLoop fuel stage cur ≠ [] := by
  intro fuel
  induction fuel with
  | zero => intro stage cur h; exact h
  | succ fuel ih =>
    intro stage cur h
    rw [xorTreeWireLoop]
    by_cases hlong : 1 < cur.length
    · rw [if_pos hlong]
      exact ih (nextLevelWires_ne_nil stage h)
    · rw [if_neg hlong]
      exact h

theorem xor_tree_final_wire_zero : xor_tree_final_wire 0 = none := rfl

theorem xor_tree_final_wire_isSome {n : Nat} (hn : n ≠ 0) :
    (xor_tree_final_wire n).isSome = true := by
  rw [xor_tree_final_wire, List.head?_isSome]
  apply xorTreeWireLoop_ne_nil
  simp [List.map_eq_nil_iff, List.range_eq_nil, hn]

/-! ## Iteration lemmas for the sequential PRNG -/

theorem foldl_range_const (f : Nat → Nat) :
    ∀ (k : Nat) (x : Nat), (List.range k).foldl (fun s _ => f s) x = f^[k] x := by
  intro k
  induction k with
  | zero => intro x; rfl
  | succ k ih =>
    intro x
    rw [List.range_succ, List.foldl_append, ih, List.foldl_cons, List.foldl_nil,
        Function.iterate_succ_apply']

theorem prng_run_eq_iterate (a c h : Nat) :
    ∀ (k s : Nat), prng_run a c h k s = (fun p => poly_affine_mod a p c h)^[k] s := by
  intro k
  induction k with
  | zero => intro s; rfl
  | succ k ih =>
    intro s
    rw [prng_run, ih, Function.iterate_succ_apply]
    rfl

/-! ## The bridge lemmas: `toPoly` as a ring-level interpretation -/

theorem toPoly_coeff (n k : Nat) :
    (toPoly n).coeff k = if n.testBit k then 1 else 0 := by
  rw [toPoly, Polynomial.finset_sum_coeff]
  have hterm : ∀ i ∈ Finset.range (Nat.size n),
      (if n.testBit i then (Polynomial.X : Polynomial (ZMod 2)) ^ i else 0).coeff k
        = if i = k then (if n.testBit k then 1 else 0) else 0 := by
    intro i _
    by_cases hik : i = k
    · subst hik
      by_cases hb : n.testBit i <;> simp [hb, Polynomial.coeff_X_pow]
    · by_cases hb : n.testBit i = true
      · rw [if_pos hb, Polynomial.coeff_X_pow, if_neg (fun h => hik h.symm), if_neg hik]
      · rw [if_neg hb, Polynomial.coeff_zero, if_neg hik]
  rw [Finset.sum_congr rfl hterm, Finset.sum_ite_eq' (Finset.range (Nat.size n)) k]
  by_cases hk : k ∈ Finset.range (Nat.size n)
  · rw [if_pos hk]
  · rw [if_neg hk]
    have hge : Nat.size n ≤ k := by
      by_contra hcon
      exact hk (Finset.mem_range.2 (by omega))
    have hfalse : n.testBit k = false :=
      Nat.testBit_lt_two_pow
        (lt_of_lt_of_le (Nat.lt_size_self n) (Nat.pow_le_pow_right (by omega) hge))
    rw [hfalse]
    simp

theorem toPoly_zero : toPoly 0 = 0 := by
  rw [toPoly, Nat.size_zero]
  simp

theorem toPoly_xor (x y : Nat) : toPoly (x ^^^ y) = toPoly x + toPoly y := by
  apply Polynomial.ext
  intro k
  rw [Polynomial.coeff_add, toPoly_coeff, toPoly_coeff, toPoly_coeff, Nat.testBit_xor]
  cases hx : x.testBit k <;> cases hy : y.testBit k <;> simp <;> decide

theorem toPoly_shiftLeft (x i : Nat) :
    toPoly (x <<< i) = toPoly x * Polynomial.X ^ i := by
  apply Polynomial.ext
  intro k
  rw [toPoly_coeff, Polynomial.coeff_mul_X_pow', Nat.testBit_shiftLeft]
  by_cases hik : i ≤ k
  · rw [if_pos hik, toPoly_coeff]
    simp [hik]
  · rw [if_neg hik]
    have : ¬ (k ≥ i) := hik
    simp [this]

theorem toPoly_inj {x y : Nat} (hxy : toPoly x = toPoly y) : x = y := by
  apply Nat.eq_of_testBit_eq
  intro i
  have hco := congrArg (fun p => Polynomial.coeff p i) hxy
  simp only [toPoly_coeff] at hco
  have h10 : (1 : ZMod 2) ≠ 0 := one_ne_zero
  by_cases hx : x.testBit i = true <;> by_cases hy : y.testBit i = true
  · rw [hx, hy]
  · rw [if_pos hx, if_neg hy] at hco
    exact absurd hco h10
  · rw [if_neg hx, if_pos hy] at hco
    exact absurd hco.symm h10
  · rw [Bool.not_eq_true] at hx hy
    rw [hx, hy]

theorem testBit_size_pred {n : Nat} (hn : n ≠ 0) :
    n.testBit (Nat.size n - 1) = true := by
  have hpos : 0 < Nat.size n := Nat.size_pos.2 (Nat.pos_of_ne_zero hn)
  apply testBit_true_of_bounds
  · exact Nat.lt_size.1 (by omega)
  · have := Nat.lt_size_self n
    rwa [show Nat.size n - 1 + 1 = Nat.size n by omega]

theorem toPoly_degree {n : Nat} (hn : n ≠ 0) :
    (toPoly n).degree = ((Nat.size n - 1 : Nat) : WithBot Nat) := by
  apply Polynomial.degree_eq_of_le_of_coeff_ne_zero
  · rw [Polynomial.degree_le_iff_coeff_zero]
    intro m hm
    have hmn : Nat.size n - 1 < m := by exact_mod_cast hm
    rw [toPoly_coeff]
    have hpos : 0 < Nat.size n := Nat.size_pos.2 (Nat.pos_of_ne_zero hn)
    have hfalse : n.testBit m = false :=
      Nat.testBit_lt_two_pow
        (lt_of_lt_of_le (Nat.lt_size_self n) (Nat.pow_le_pow_right (by omega) (by omega)))
    rw [hfalse]
    simp
  · rw [toPoly_coeff, testBit_size_pred hn]
    simp

theorem toPoly_natDegree {n : Nat} (hn : n ≠ 0) :
    (toPoly n).natDegree = Nat.size n - 1 :=
  Polynomial.natDegree_eq_of_degree_eq_some (toPoly_degree hn)

theorem toPoly_monic {n : Nat} (hn : n ≠ 0) : (toPoly n).Monic := by
  rw [Polynomial.Monic, Polynomial.leadingCoeff, toPoly_natDegree hn, toPoly_coeff,
      testBit_size_pred hn]
  simp

theorem poly_degree_lt_iff {x h : Nat} :
    poly_degree x < poly_degree h ↔ Nat.size x < Nat.size h := by
  rw [← not_le, poly_degree_le_iff, not_le]

theorem toPoly_degree_lt {x h : Nat} (hh : h ≠ 0)
    (hlt : poly_degree x < poly_degree h) :
    (toPoly x).degree < (toPoly h).degree := by
  rw [toPoly_degree hh]
  by_cases hx : x = 0
  · subst hx
    rw [toPoly_zero, Polynomial.degree_zero]
    exact WithBot.bot_lt_coe _
  · rw [toPoly_degree hx]
    have hsz := poly_degree_lt_iff.1 hlt
    have hp1 : 0 < Nat.size x := Nat.size_pos.2 (Nat.pos_of_ne_zero hx)
    exact_mod_cast by omega

theorem toPoly_bit (n : Nat) :
    toPoly n = (if n % 2 = 1 then 1 else 0) + Polynomial.X * toPoly (n / 2) := by
  apply Polynomial.ext
  intro k
  rw [Polynomial.coeff_add, toPoly_coeff]
  cases k with
  | zero =>
    rw [Polynomial.coeff_X_mul_zero, Nat.testBit_zero]
    by_cases h2 : n % 2 = 1 <;> simp [h2, Polynomial.coeff_one]
  | succ k =>
    rw [Polynomial.coeff_X_mul, toPoly_coeff, Nat.testBit_add_one]
    by_cases h2 : n % 2 = 1 <;> simp [h2, Polynomial.coeff_one]

theorem mul_list_sum {R : Type} [CommRing R] (r : R) :
    ∀ l : List R, r * l.sum = (l.map (fun x => r * x)).sum
  | [] => by simp
  | x :: xs => by
    rw [List.sum_cons, List.map_cons, List.sum_cons, mul_add, mul_list_sum r xs]

theorem toPoly_eq_sum_gbp (n : Nat) :
    toPoly n =
      ((get_bit_positions n).map (fun i => (Polynomial.X : Polynomial (ZMod 2)) ^ i)).sum := by
  induction n using Nat.strong_induction_on with
  | _ n ih =>
    by_cases hn : n = 0
    · subst hn
      rw [get_bit_positions_zero, toPoly_zero]
      rfl
    · have hdiv : n / 2 < n := Nat.div_lt_self (Nat.pos_of_ne_zero hn) (by omega)
      rw [get_bit_positions_unfold hn, List.map_append, List.sum_append, toPoly_bit n,
          ih (n / 2) hdiv, mul_list_sum, List.map_map, List.map_map]
      congr 1
      · by_cases h2 : n % 2 = 1 <;> simp [h2]
      · apply congrArg
        apply List.map_congr_left
        intro i _
        simp [pow_succ]
        ring

theorem toPoly_affine_fold (p : Nat) :
    ∀ (l : List Nat) (acc : Nat),
      toPoly (l.foldl (fun out i => out ^^^ (p <<< i)) acc)
        = toPoly acc
          + ((l.map (fun i => (Polynomial.X : Polynomial (ZMod 2)) ^ i)).sum) * toPoly p
  | [], acc => by simp
  | i :: l, acc => by
    rw [List.foldl_cons, toPoly_affine_fold p l (acc ^^^ (p <<< i)), toPoly_xor,
        toPoly_shiftLeft, List.map_cons, List.sum_cons, add_mul]
    ring

theorem toPoly_poly_affine (a p c : Nat) :
    toPoly (poly_affine a p c) = toPoly a * toPoly p + toPoly c := by
  rw [poly_affine, toPoly_xor, toPoly_affine_fold p (get_bit_positions a) 0, toPoly_zero,
      ← toPoly_eq_sum_gbp a]
  ring

/-- The reduction loop computes Mathlib's remainder by the (monic) modulus
polynomial: every loop iteration adds a polynomial multiple of `h`, and the
loop exits below the degree of `h`. -/
theorem toPoly_polyModGo {h : Nat} (hh : h ≠ 0) :
    ∀ {fuel rem : Nat}, Nat.size rem < fuel →
      toPoly (polyModGo h fuel rem) = toPoly rem %ₘ toPoly h := by
  intro fuel
  induction fuel with
  | zero => intro rem h1; omega
  | succ fuel ih =>
    intro rem h1
    rw [polyModGo]
    by_cases hguard : poly_degree h ≤ poly_degree rem
    · rw [if_pos hguard]
      have hlt := modStep_size_lt hh hguard
      rw [ih (by omega), modStep, toPoly_xor, toPoly_shiftLeft,
          Polynomial.add_modByMonic]
      have hdvd : toPoly h ∣ toPoly h * Polynomial.X ^ (poly_degree rem - poly_degree h).toNat :=
        dvd_mul_right _ _
      rw [(Polynomial.modByMonic_eq_zero_iff_dvd (toPoly_monic hh)).2 hdvd, add_zero]
    · rw [if_neg hguard, eq_comm, Polynomial.modByMonic_eq_self_iff (toPoly_monic hh)]
      exact toPoly_degree_lt hh (by omega)

theorem toPoly_poly_mod {y h : Nat} (hh : h ≠ 0) :
    toPoly (poly_mod y h) = toPoly y %ₘ toPoly h := by
  rw [poly_mod, bit_length_eq_size]
  exact toPoly_polyModGo hh (by omega)

/-- Pre-reducing the constants of the affine recurrence does not change the
reduced result: the heart of claim C6, proven through the ring interpretation. -/
theorem poly_affine_mod_pre_reduce {a c h : Nat} (p : Nat) (hh : h ≠ 0) :
    poly_affine_mod (poly_mod a h) p (poly_mod c h) h = poly_affine_mod a p c h := by
  apply toPoly_inj
  rw [poly_affine_mod, poly_affine_mod, toPoly_poly_mod hh, toPoly_poly_mod hh,
      toPoly_poly_affine, toPoly_poly_affine, toPoly_poly_mod hh, toPoly_poly_mod hh]
  apply Polynomial.modByMonic_eq_of_dvd_sub (toPoly_monic hh)
  have hA := Polynomial.modByMonic_eq_sub_mul_div (toPoly a) (toPoly_monic hh)
  have hC := Polynomial.modByMonic_eq_sub_mul_div (toPoly c) (toPoly_monic hh)
  refine ⟨-((toPoly a /ₘ toPoly h) * toPoly p + (toPoly c /ₘ toPoly h)), ?_⟩
  rw [hA, hC]
  ring

/-! ## Structural parameters of the modular reducer and the affine generator -/

theorem size_of_degree_ge_one {h : Nat} (hD : (1 : Int) ≤ poly_degree h) :
    h ≠ 0 ∧ 2 ≤ Nat.size h := by
  by_cases h0 : h = 0
  · rw [h0, poly_degree, if_pos rfl] at hD
    omega
  · refine ⟨h0, ?_⟩
    rw [poly_degree_eq_size, if_neg h0] at hD
    omega

/-- The reduction constants are exactly `x^i mod h` for the bit positions
`i = D, D+1, ..., b-1` (ascending), when `D = degree h ≥ 1` and `b ≥ D`. -/
theorem get_reduction_constants_eq {h b : Nat} (hD : (1 : Int) ≤ poly_degree h)
    (hb : bit_length h - 1 ≤ b) :
    get_reduction_constants h b =
      (List.range (b - (bit_length h - 1))).map
        (fun i => poly_mod (2 ^ ((bit_length h - 1) + i)) h) := by
  obtain ⟨h0, hsz⟩ := size_of_degree_ge_one hD
  rw [bit_length_eq_size] at hb ⊢
  simp only [get_reduction_constants]
  rw [poly_degree_eq_size, if_neg h0]
  have hnum : (max ((b : Int) - 1 - ((Nat.size h : Int) - 1) + 1) 0).toNat
      = b - (Nat.size h - 1) := by omega
  rw [hnum]
  apply List.map_congr_left
  intro i _
  have harg : (((Nat.size h : Int) - 1) + (i : Int)).toNat = (Nat.size h - 1) + i := by
    omega
  rw [harg, Nat.one_shiftLeft]

theorem mod_xor_tree_num_vectors_eq {h b : Nat} (hD : (1 : Int) ≤ poly_degree h)
    (hb : bit_length h - 1 ≤ b) :
    mod_xor_tree_num_vectors h b = b - (bit_length h - 1) + 1 := by
  rw [mod_xor_tree_num_vectors, get_reduction_constants_eq hD hb,
      List.length_map, List.length_range]

/-- With `b < D` the reducer requests a zero-vector XOR tree. -/
theorem mod_submodule_num_vectors_eq_zero {h b : Nat} (hD : (1 : Int) ≤ poly_degree h)
    (hb : b < bit_length h - 1) :
    mod_submodule_num_vectors h b = 0 := by
  obtain ⟨h0, hsz⟩ := size_of_degree_ge_one hD
  rw [bit_length_eq_size] at hb
  rw [mod_submodule_num_vectors, bit_length_eq_size]
  omega

/-- Largest set-bit position of a non-zero `a`, as seen by the affine
generator through `get_bit_positions(a)[::-1][0]`. -/
theorem reverse_gbp_head {a : Nat} (ha : a ≠ 0) :
    ((get_bit_positions a).reverse).head? = some (Nat.size a - 1) := by
  rw [← List.getLast?_eq_head?_reverse, get_bit_positions_getLast ha]

theorem affine_generate_src_eq {a c b : Nat} (ha : a ≠ 0) :
    gf2_poly_affine_generate_src a c b =
      some ⟨(bit_length a - 1) + b,
            (if c ≠ 0 then (get_bit_positions a).length + 1
             else (get_bit_positions a).length),
            (bit_length a - 1) + b⟩ := by
  simp only [gf2_poly_affine_generate_src]
  rw [reverse_gbp_head ha, bit_length_eq_size, List.length_reverse]

/-! ## The claims -/

/-- C1: for every polynomial `y ≥ 0` and every modulus `h ≥ 1` (so
`degree h ≥ 0`), the remainder `poly_mod y h` has degree strictly below
`degree h`, and `poly_mod` is idempotent:
`poly_mod (poly_mod y h) h = poly_mod y h`. -/
theorem C1_poly_mod_degree_and_idempotent (y h : Nat) (hh : 1 ≤ h) :
    poly_degree (poly_mod y h) < poly_degree h ∧
      poly_mod (poly_mod y h) h = poly_mod y h := by
  have h0 : h ≠ 0 := by omega
  exact ⟨poly_mod_degree_lt h0, poly_mod_idem y h h0⟩

theorem C1_witness :
    1 ≤ 285 ∧
      (poly_degree (poly_mod 1000 285) < poly_degree 285 ∧
        poly_mod (poly_mod 1000 285) 285 = poly_mod 1000 285) :=
  ⟨by decide, C1_poly_mod_degree_and_idempotent 1000 285 (by decide)⟩

/-- C2: for every modulus `h` with `D = degree h ≥ 1` and every input width
`b ≥ D`, the ModularReducer generator precomputes exactly the constants
`poly_mod (1 <<< i) h` for bit positions `i = D, ..., b-1` in ascending
order, and feeds `b - D + 1` vectors of width `D` into one XOR tree; in
particular for `h = 285` (degree 8) and `b = 12` it precomputes 4 constants
(bit positions 8..11) and builds a 5-input, 8-bit XOR tree. -/
theorem C2_mod_reducer_shape (h b : Nat) (hD : (1 : Int) ≤ poly_degree h)
    (hb : bit_length h - 1 ≤ b) :
    get_reduction_constants h b =
        (List.range (b - (bit_length h - 1))).map
          (fun i => poly_mod (2 ^ ((bit_length h - 1) + i)) h)
      ∧ mod_xor_tree_num_vectors h b = b - (bit_length h - 1) + 1
      ∧ mod_xor_tree_bit_length h = bit_length h - 1
      ∧ (get_reduction_constants 285 12
            = [poly_mod (2 ^ 8) 285, poly_mod (2 ^ 9) 285,
               poly_mod (2 ^ 10) 285, poly_mod (2 ^ 11) 285]
         ∧ (get_reduction_constants 285 12).length = 4
         ∧ mod_xor_tree_num_vectors 285 12 = 5
         ∧ mod_xor_tree_bit_length 285 = 8) :=
  ⟨get_reduction_constants_eq hD hb, mod_xor_tree_num_vectors_eq hD hb, rfl, by decide⟩

theorem C2_witness :
    (1 : Int) ≤ poly_degree 285 ∧ bit_length 285 - 1 ≤ 12 ∧
      get_reduction_constants 285 12 =
        (List.range (12 - (bit_length 285 - 1))).map
          (fun i => poly_mod (2 ^ ((bit_length 285 - 1) + i)) 285) :=
  ⟨by decide, by decide, (C2_mod_reducer_shape 285 12 (by decide) (by decide)).1⟩

/-- C3: for every constant `a ≥ 1`, constant `c ≥ 0` and input width
`b ≥ 1`, the AffineTransform generator computes output width
`degree a + b` (the largest bit position of `a` plus `b`) and feeds
`|bitPositions a| + 1` vectors into its XOR tree when `c ≠ 0` but only
`|bitPositions a|` when `c = 0` (the constant vector is omitted); in
particular for `a = 17, c = 1, b = 16` it produces width 20 with a 3-input,
20-bit XOR tree. -/
theorem C3_affine_transform_shape (a c b : Nat) (ha : 1 ≤ a) (hb : 1 ≤ b) :
    gf2_poly_affine_generate_src a c b =
        some ⟨(bit_length a - 1) + b,
              (if c ≠ 0 then (get_bit_positions a).length + 1
               else (get_bit_positions a).length),
              (bit_length a - 1) + b⟩
      ∧ gf2_poly_affine_generate_src 17 1 16 = some ⟨20, 3, 20⟩ :=
  ⟨affine_generate_src_eq (by omega), by decide⟩

theorem C3_witness :
    1 ≤ 17 ∧ 1 ≤ 16 ∧
      gf2_poly_affine_generate_src 17 1 16 =
        some ⟨(bit_length 17 - 1) + 16,
              (if (1 : Nat) ≠ 0 then (get_bit_positions 17).length + 1
               else (get_bit_positions 17).length),
              (bit_length 17 - 1) + 16⟩ :=
  ⟨by decide, by decide, (C3_affine_transform_shape 17 1 16 (by decide) (by decide)).1⟩

/-- C4: the balanced binary-tree pairwise-XOR reduction built by the
XOR-tree generator (pairing adjacent elements at each stage, passing an odd
leftover element through unchanged) computes the same value as the
iterative left-to-right XOR of all `N ≥ 1` vectors; for `N = 1` the result
is exactly the single input. -/
theorem C4_xor_tree_equals_iterative_xor :
    (∀ l : List Nat, l ≠ [] → xor_tree_out l = some (xor_integers l)) ∧
      (∀ v : Nat, xor_tree_out [v] = some v) := by
  constructor
  · intro l hl
    exact xor_tree_out_eq hl
  · intro v
    rw [xor_tree_out_eq (List.cons_ne_nil v []), xor_integers, List.foldl_cons,
        List.foldl_nil, Nat.zero_xor]

theorem C4_witness : xor_tree_out [3, 5, 9] = some (xor_integers [3, 5, 9]) :=
  C4_xor_tree_equals_iterative_xor.1 [3, 5, 9] (by decide)

/-- C5: the SequentialPRNGWrapper harness's golden value is the 100-fold
iteration of `poly_affine_mod a _ c h` starting from the drawn seed, and
more generally `k` enabled clock steps of the generated state register
compute the `k`-fold iteration, with `k = 0` returning the state
unchanged. -/
theorem C5_prng_harness_and_state_machine (S : Type) (R : RNGImpl S) (st : S)
    (a c h : Nat) :
    ((prng_random_computation_example R a c h st).1.2
        = affine_mod_iter a c h 100 ((prng_random_computation_example R a c h st).1.1))
      ∧ (∀ k s : Nat, prng_run a c h k s = affine_mod_iter a c h k s)
      ∧ (∀ s : Nat, prng_run a c h 0 s = s) := by
  refine ⟨?_, ?_, fun s => rfl⟩
  · simp only [prng_random_computation_example, affine_mod_iter]
    exact foldl_range_const _ 100 _
  · intro k s
    rw [prng_run_eq_iterate, affine_mod_iter]

/-- C6: pre-reducing the recurrence constants never changes recurrence
behaviour: for every `a ≥ 0`, `c ≥ 0`, modulus `h` of degree `≥ 1` and
every field element `p`,
`poly_affine_mod (poly_mod a h) p (poly_mod c h) h = poly_affine_mod a p c h`. -/
theorem C6_pre_reduction_preserves_recurrence (a c h p : Nat)
    (hD : (1 : Int) ≤ poly_degree h) (hp : p < 2 ^ (bit_length h - 1)) :
    poly_affine_mod (poly_mod a h) p (poly_mod c h) h = poly_affine_mod a p c h := by
  obtain ⟨h0, -⟩ := size_of_degree_ge_one hD
  exact poly_affine_mod_pre_reduce p h0

theorem C6_witness :
    (1 : Int) ≤ poly_degree 285 ∧ 100 < 2 ^ (bit_length 285 - 1) ∧
      poly_affine_mod (poly_mod 23 285) 100 (poly_mod 5 285) 285
        = poly_affine_mod 23 100 5 285 :=
  ⟨by decide, by decide,
    C6_pre_reduction_preserves_recurrence 23 5 285 100 (by decide) (by decide)⟩

/-- C7: for every `y ≥ 0` and `h ≥ 1` the XOR-shift-subtract loop of
`poly_mod` terminates (within `bit_length y` iterations), because each
iteration strictly decreases the degree of the remainder; for `h = 0` the
loop never exits, whatever the iteration bound, so `h = 0` must be rejected
before calling. -/
theorem C7_reduction_loop_terminates (y h : Nat) (hh : 1 ≤ h) :
    (polyModFuel h (bit_length y) y).isSome = true
      ∧ (∀ rem : Nat, poly_degree h ≤ poly_degree rem →
          poly_degree (modStep h rem) < poly_degree rem)
      ∧ (∀ fuel rem : Nat, polyModFuel 0 fuel rem = none) := by
  have h0 : h ≠ 0 := by omega
  refine ⟨?_, fun rem hg => modStep_degree_lt h0 hg,
          fun fuel rem => polyModFuel_zero_modulus fuel rem⟩
  rw [bit_length_eq_size]
  exact polyModFuel_isSome h0 le_rfl

theorem C7_witness :
    1 ≤ 285 ∧ (polyModFuel 285 (bit_length 1000) 1000).isSome = true :=
  ⟨by decide, (C7_reduction_loop_terminates 1000 285 (by decide)).1⟩

/-- C8: a ModularReducer request with input width `b < D = degree h`
entails requesting an XOR tree with `N = 0` vectors; that request fails
(the generator's final-wire lookup on the empty level, a fatal error) and
the whole reducer pipeline produces no artifact. -/
theorem C8_narrow_reduction_request_fails (h b : Nat)
    (hD : (1 : Int) ≤ poly_degree h) (hb : b < bit_length h - 1) :
    mod_submodule_num_vectors h b = 0
      ∧ xor_tree_final_wire (mod_submodule_num_vectors h b) = none
      ∧ gf2_poly_mod_generate h b = none := by
  have hz := mod_submodule_num_vectors_eq_zero hD hb
  refine ⟨hz, ?_, ?_⟩
  · rw [hz, xor_tree_final_wire_zero]
  · rw [gf2_poly_mod_generate, hz, xor_tree_final_wire_zero]

theorem C8_witness :
    (1 : Int) ≤ poly_degree 285 ∧ 7 < bit_length 285 - 1 ∧
      (mod_submodule_num_vectors 285 7 = 0
        ∧ xor_tree_final_wire (mod_submodule_num_vectors 285 7) = none
        ∧ gf2_poly_mod_generate 285 7 = none) :=
  ⟨by decide, by decide, C8_narrow_reduction_request_fails 285 7 (by decide) (by decide)⟩

/-- C9 (counterexample): the claim that the core treats `a = 0` as a valid
AffineTransform input fails at `a = 0, c = 1, b = 1`: the generator's
out-width computation reads the first element of the empty bit-position
list and aborts, returning no module description. -/
theorem C9_counterexample : gf2_poly_affine_generate_src 0 1 1 = none := rfl

/-- C9 (amended): for `a = 0`, every `c ≥ 0` and every input width `b ≥ 1`,
generating the affine module fails (the empty bit-position list makes the
`a_ones[0]` out-width lookup abort) rather than returning a module
description. -/
theorem C9_amended_zero_a_fails (c b : Nat) :
    gf2_poly_affine_generate_src 0 c b = none := rfl

/-- C10: every generator's output is deterministic: the invocation-varying
content of module and harness (parameters, fixed-seed random stimulus and
golden value) is independent of the ambient random-generator state, because
each invocation reseeds with the fixed seed 42 — so two invocations with
identical parameters produce identical output. -/
theorem C10_generator_determinism (S : Type) (R : RNGImpl S) (st₁ st₂ : S) :
    (∀ num_vectors bit_len : Nat,
        (xor_tree_generate_tb_desc R num_vectors bit_len st₁).1
          = (xor_tree_generate_tb_desc R num_vectors bit_len st₂).1)
      ∧ (∀ a c h : Nat,
          (prng_random_computation_example R a c h st₁).1
            = (prng_random_computation_example R a c h st₂).1) :=
  ⟨fun _ _ => rfl, fun _ _ _ => rfl⟩
